import Mathlib

/-!
Shallow embedding of src/examples/halo2_otp.rs (richardliang/halo2-playground).

The circuit construction function otp_merkle_proof is modelled as a pure
function from the string-typed CircuitInput to a trace of constraint-system
events together with the list of public outputs (make_public).  The Poseidon
sponge implementation lives in an external crate, so the 2-to-1 compression is
an abstract parameter hashL : List F -> F applied to the list of absorbed
elements of one chip instance; all structure visible in the repository
(constructor parameters, fresh chip per level, update argument order, the
boolean assertion, the host-level branch on the direction bit, witness
loading and decoding order) is translated directly from the source.
Decoding follows from_str_vartime of the ff crate, which the source calls.
Rust panics (expect / unwrap on a failed decode) are modelled by returning
none together with the event trace accumulated up to the panic point.
-/

namespace Halo2Otp

set_option maxRecDepth 100000

/-- Poseidon constants, src lines 8-11. -/
def T : Nat := 3

def RATE : Nat := 2

def R_F : Nat := 8

def R_P : Nat := 57

/-- Merkle depth, src line 16. -/
def LEVELS : Nat := 27

/-- CircuitInput, src lines 18-24.  The arrays [String; LEVELS] become lists
whose length is stated as a hypothesis where it matters. -/
structure CircuitInput where
  otp : String
  time : String
  path_elements : List String
  path_index : List String
deriving DecidableEq

/-- Accumulate decimal digits into the field, mirroring the loop body of
from_str_vartime in the ff crate (res = res * 10 + digit). -/
def fromDigits (F : Type) [Field F] : List Char → F → Option F
  | [], acc => some acc
  | c :: cs, acc =>
    if c.isDigit then fromDigits F cs (acc * 10 + ((c.toNat - 48 : Nat) : F))
    else none

/-- from_str_vartime of the ff crate (PrimeField provided method), used by the
source at lines 34-37: empty strings fail, the literal string 0 decodes to
zero, a leading zero digit otherwise fails, any non-digit fails, and the
digits are folded into the field with arithmetic modulo the characteristic. -/
def from_str_vartime (F : Type) [Field F] (s : String) : Option F :=
  if s.isEmpty then none
  else if s = "0" then some 0
  else
    match s.toList with
    | [] => none
    | c :: cs =>
      if c.isDigit && c != '0' then fromDigits F cs ((c.toNat - 48 : Nat) : F)
      else none

/-- Decode a list of strings, failing if any entry fails. -/
def decodeList (F : Type) [Field F] : List String → Option (List F)
  | [] => some []
  | s :: rest =>
    (from_str_vartime F s).bind fun v =>
      (decodeList F rest).map fun vs => v :: vs

/-- One observable step of circuit construction: witness loading, the boolean
assertion gate, and the three Poseidon chip operations. -/
inductive CEvent (F : Type) where
  | loadWitness (v : F)
  | assertBit (v : F)
  | poseidonNew (t rate rF rP : Nat)
  | poseidonUpdate (vs : List F)
  | poseidonSqueeze (absorbed : List F) (out : F)
deriving DecidableEq

/-- A Poseidon chip instance: its construction parameters and the elements
absorbed so far (the buffer squeezed into one output element). -/
structure PoseidonChip (F : Type) where
  t : Nat
  rate : Nat
  rF : Nat
  rP : Nat
  absorbed : List F
deriving DecidableEq

/-- ctx.load_witness, recorded in the trace. -/
def loadWitness {F : Type} (tr : List (CEvent F)) (v : F) : List (CEvent F) :=
  tr ++ [CEvent.loadWitness v]

/-- gate.assert_bit, src line 55: adds the booleanity constraint event. -/
def assert_bit {F : Type} (tr : List (CEvent F)) (v : F) : List (CEvent F) :=
  tr ++ [CEvent.assertBit v]

/-- PoseidonChip::new(ctx, R_F, R_P) with type parameters T, RATE. -/
def chipNew {F : Type} (tr : List (CEvent F)) (t rate rF rP : Nat) :
    List (CEvent F) × PoseidonChip F :=
  (tr ++ [CEvent.poseidonNew t rate rF rP], ⟨t, rate, rF, rP, []⟩)

/-- poseidon.update, src lines 46 and 61 / 63: buffer the elements. -/
def chipUpdate {F : Type} (tr : List (CEvent F)) (ch : PoseidonChip F)
    (vs : List F) : List (CEvent F) × PoseidonChip F :=
  (tr ++ [CEvent.poseidonUpdate vs],
   ⟨ch.t, ch.rate, ch.rF, ch.rP, ch.absorbed ++ vs⟩)

/-- poseidon.squeeze, src lines 47 and 65: hash the absorbed elements. -/
def chipSqueeze {F : Type} (hashL : List F → F) (tr : List (CEvent F))
    (ch : PoseidonChip F) : List (CEvent F) × F :=
  (tr ++ [CEvent.poseidonSqueeze ch.absorbed (hashL ch.absorbed)],
   hashL ch.absorbed)

/-- input.path_elements.map (decode then ctx.load_witness), src lines 36-37.
A failed decode panics inside the map, so the witnesses loaded for earlier
entries remain in the trace and the overall result is none. -/
def loadStrings (F : Type) [Field F] (tr : List (CEvent F)) :
    List String → List (CEvent F) × Option (List F)
  | [] => (tr, some [])
  | s :: rest =>
    match from_str_vartime F s with
    | none => (tr, none)
    | some v =>
      match loadStrings F (loadWitness tr v) rest with
      | (tr2, none) => (tr2, none)
      | (tr2, some vs) => (tr2, some (v :: vs))

/-- The fold loop of src lines 53-66, iterating over the zipped
(path_elements[i], path_index[i]) pairs with cur = level_hashes[i]:
assert_bit on the index, a fresh inner Poseidon chip, an update whose
argument order is chosen by a host-level branch on the witness value of the
bit, and a squeeze producing the next level hash.  Returns the final trace
and the list of level hashes produced (level_hashes[1..]). -/
def foldLevels (F : Type) [Field F] [DecidableEq F] (hashL : List F → F)
    (tr : List (CEvent F)) (cur : F) :
    List (F × F) → List (CEvent F) × List F
  | [] => (tr, [])
  | (sib, bit) :: rest =>
    let tr1 := assert_bit tr bit
    let p := chipNew tr1 T RATE R_F R_P
    let p2 :=
      if bit = 0 then chipUpdate p.1 p.2 [cur, sib]
      else chipUpdate p.1 p.2 [sib, cur]
    let q := chipSqueeze hashL p2.1 p2.2
    let res := foldLevels F hashL q.1 q.2 rest
    (res.1, q.2 :: res.2)

/-- otp_merkle_proof, src lines 26-71: decode otp and time, decode-and-load
the two path arrays, load otp and time as witnesses, push time to
make_public, hash (time, otp) into the leaf with a Poseidon chip, run the
fold, and push the root level_hashes[LEVELS] to make_public.  The result is
the final event trace together with make_public (none if a decode panicked). -/
def otp_merkle_proof (F : Type) [Field F] [DecidableEq F]
    (hashL : List F → F) (input : CircuitInput) :
    List (CEvent F) × Option (List F) :=
  match from_str_vartime F input.otp with
  | none => ([], none)
  | some otp =>
    match from_str_vartime F input.time with
    | none => ([], none)
    | some time =>
      match loadStrings F [] input.path_elements with
      | (tr, none) => (tr, none)
      | (tr, some path_elements) =>
        match loadStrings F tr input.path_index with
        | (tr2, none) => (tr2, none)
        | (tr2, some path_index) =>
          let tr3 := loadWitness tr2 otp
          let tr4 := loadWitness tr3 time
          let p := chipNew tr4 T RATE R_F R_P
          let p2 := chipUpdate p.1 p.2 [time, otp]
          let q := chipSqueeze hashL p2.1 p2.2
          let res := foldLevels F hashL q.1 q.2
            (path_elements.zip path_index)
          let level_hashes := q.2 :: res.2
          (res.1, some [time, level_hashes.getD LEVELS 0])

/-- The pair of hash inputs the source actually uses at one fold level:
cur first when the bit is zero, sibling first otherwise (src lines 60-64). -/
def stepPair {F : Type} [Field F] [DecidableEq F] (cur sib bit : F) : List F :=
  if bit = 0 then [cur, sib] else [sib, cur]

/-- One fold step as a pure function of the previous level hash, the sibling
and the direction bit only. -/
def foldStep {F : Type} [Field F] [DecidableEq F] (hashL : List F → F)
    (cur sib bit : F) : F :=
  hashL (stepPair cur sib bit)

/-- The sequence level_hashes[1..] generated from a leaf by the fold. -/
def levelSeq {F : Type} [Field F] [DecidableEq F] (hashL : List F → F) (cur : F) :
    List (F × F) → List F
  | [] => []
  | (sib, bit) :: rest =>
    foldStep hashL cur sib bit ::
      levelSeq hashL (foldStep hashL cur sib bit) rest

/-- The full sequence of LEVELS + 1 level hashes, leaf first. -/
def levelHashes {F : Type} [Field F] [DecidableEq F] (hashL : List F → F) (leaf : F)
    (pe pidx : List F) : List F :=
  leaf :: levelSeq hashL leaf (pe.zip pidx)

/-- The events emitted by the fold loop, level by level. -/
def levelTrace {F : Type} [Field F] [DecidableEq F] (hashL : List F → F) (cur : F) :
    List (F × F) → List (CEvent F)
  | [] => []
  | (sib, bit) :: rest =>
    CEvent.assertBit bit ::
    CEvent.poseidonNew T RATE R_F R_P ::
    CEvent.poseidonUpdate (stepPair cur sib bit) ::
    CEvent.poseidonSqueeze (stepPair cur sib bit)
      (foldStep hashL cur sib bit) ::
    levelTrace hashL (foldStep hashL cur sib bit) rest

/-- The events emitted before the fold loop when every decode succeeds. -/
def prefixTrace {F : Type} (hashL : List F → F) (otpv timev : F)
    (pe pidx : List F) : List (CEvent F) :=
  pe.map CEvent.loadWitness ++ pidx.map CEvent.loadWitness ++
    [CEvent.loadWitness otpv, CEvent.loadWitness timev,
     CEvent.poseidonNew T RATE R_F R_P,
     CEvent.poseidonUpdate [timev, otpv],
     CEvent.poseidonSqueeze [timev, otpv] (hashL [timev, otpv])]

/-- Number of events before the fold loop: 2 * LEVELS witness loads for the
path arrays, 2 loads for otp and time, and 3 leaf-hash events. -/
def prefixLen : Nat := 2 * LEVELS + 5

/-- Whether one event, taken as a constraint on the concrete witness values
it mentions, holds: the booleanity gate asks v * (v - 1) = 0, the squeeze
gates tie the output to the hash of the absorbed elements, and the remaining
events impose nothing by themselves. -/
def CEvent.ok {F : Type} [Field F] [DecidableEq F] (hashL : List F → F) :
    CEvent F → Bool
  | CEvent.assertBit v => v * (v - 1) == 0
  | CEvent.poseidonSqueeze ab out => out == hashL ab
  | _ => true

/-- The constraint system of a trace is satisfied iff every event holds on
the witness values assigned by the construction. -/
def satisfiedTrace {F : Type} [Field F] [DecidableEq F]
    (hashL : List F → F) (tr : List (CEvent F)) : Bool :=
  tr.all (CEvent.ok hashL)

/-- The output of a squeeze event, none for other events. -/
def squeezeOut {F : Type} : CEvent F → Option F
  | CEvent.poseidonSqueeze _ out => some out
  | _ => none

/-- The observable sequence of hash outputs of a run: the leaf commitment
followed by the 27 fold-level hashes. -/
def runLevelHashes {F : Type} [Field F] [DecidableEq F]
    (hashL : List F → F) (input : CircuitInput) : List F :=
  ((otp_merkle_proof F hashL input).1).filterMap squeezeOut

/-- Whether an event is a witness load. -/
def isLoad {F : Type} : CEvent F → Bool
  | CEvent.loadWitness _ => true
  | _ => false

/-- Whether an event is a Poseidon chip instantiation. -/
def isPoseidonNew {F : Type} : CEvent F → Bool
  | CEvent.poseidonNew _ _ _ _ => true
  | _ => false

instance factPrime101 : Fact (Nat.Prime 101) := ⟨by norm_num⟩

/-- A concrete 2-to-1 compression over the field with 101 elements, used to
instantiate the abstract sponge in witnesses and counterexamples; it is
asymmetric in its two inputs. -/
def hash101 (l : List (ZMod 101)) : ZMod 101 :=
  l.getD 0 0 + 2 * l.getD 1 0 + 3

/-- The concrete test vector of the repository (src lines 90-95). -/
def wIn : CircuitInput :=
  { otp := "12345"
  , time := "3155000"
  , path_elements :=
      [ "1234", "11234", "12222", "118865", "435676", "494999", "4837377"
      , "1234", "11234", "12222", "118865", "435676", "494999", "4837377"
      , "1234", "11234", "12222", "118865", "435676", "494999", "4837377"
      , "1234", "11234", "12222", "118865", "435676", "494999" ]
  , path_index :=
      [ "1", "1", "0", "1", "0", "1", "0", "1", "1", "0", "1", "0", "1"
      , "0", "1", "1", "0", "1", "0", "1", "0", "1", "1", "0", "1", "0"
      , "1" ] }

/-- The decoded otp of the test vector over the 101-element field. -/
def wOtp : ZMod 101 := (from_str_vartime (ZMod 101) wIn.otp).getD 0

/-- The decoded time of the test vector over the 101-element field. -/
def wTime : ZMod 101 := (from_str_vartime (ZMod 101) wIn.time).getD 0

/-- The decoded path elements of the test vector. -/
def wPe : List (ZMod 101) := (decodeList (ZMod 101) wIn.path_elements).getD []

/-- The decoded path indices of the test vector. -/
def wPi : List (ZMod 101) := (decodeList (ZMod 101) wIn.path_index).getD []

/-- The test vector with its first direction bit replaced by 2, a valid field
element that is neither 0 nor 1. -/
def w3In : CircuitInput :=
  { otp := wIn.otp
  , time := wIn.time
  , path_elements := wIn.path_elements
  , path_index := "2" :: wIn.path_index.drop 1 }

/-- The decoded path indices of the non-boolean-bit vector. -/
def w3Pi : List (ZMod 101) := (decodeList (ZMod 101) w3In.path_index).getD []

/-- A small well-formed input whose direction bits are all zero, used to
exhibit the actual left / right ordering of the fold. -/
def cexIn : CircuitInput :=
  { otp := "5"
  , time := "3"
  , path_elements := List.replicate 27 "1"
  , path_index := List.replicate 27 "0" }

/-- An input whose second path element is not a decimal string: decoding it
panics after the first path element has already been loaded as a witness. -/
def badIn : CircuitInput :=
  { otp := "5"
  , time := "3"
  , path_elements := "7" :: "x" :: List.replicate 25 "1"
  , path_index := List.replicate 27 "0" }

/-! Helper lemmas characterising the run of otp_merkle_proof. -/

theorem loadStrings_some {F : Type} [Field F] {l : List String} {vs : List F}
    (tr : List (CEvent F)) (h : decodeList F l = some vs) :
    loadStrings F tr l = (tr ++ vs.map CEvent.loadWitness, some vs) := by
  induction l generalizing tr vs with
  | nil =>
    simp only [decodeList, Option.some.injEq] at h
    subst h
    simp [loadStrings]
  | cons s rest ih =>
    simp only [decodeList, Option.bind_eq_some, Option.map_eq_some'] at h
    obtain ⟨v, hv, vs', hvs', hcons⟩ := h
    subst hcons
    simp [loadStrings, hv, ih _ hvs', loadWitness, List.append_assoc]

theorem loadStrings_none {F : Type} [Field F] {l : List String}
    (tr : List (CEvent F)) (h : decodeList F l = none) :
    (loadStrings F tr l).2 = none := by
  induction l generalizing tr with
  | nil => simp [decodeList] at h
  | cons s rest ih =>
    simp only [decodeList] at h
    cases hv : from_str_vartime F s with
    | none => simp [loadStrings, hv]
    | some v =>
      rw [hv] at h
      simp only [Option.some_bind] at h
      have hrest : decodeList F rest = none := by
        cases hr : decodeList F rest with
        | none => rfl
        | some vs => rw [hr] at h; simp at h
      have := ih (loadWitness tr v) hrest
      simp only [loadStrings, hv]
      cases hrun : loadStrings F (loadWitness tr v) rest with
      | mk tr2 o =>
        rw [hrun] at this
        simp at this
        subst this
        simp

theorem loadStrings_loads {F : Type} [Field F] {l : List String}
    (tr : List (CEvent F)) (htr : ∀ e ∈ tr, isLoad e = true) :
    ∀ e ∈ (loadStrings F tr l).1, isLoad e = true := by
  induction l generalizing tr with
  | nil => simpa [loadStrings] using htr
  | cons s rest ih =>
    cases hv : from_str_vartime F s with
    | none => simpa [loadStrings, hv] using htr
    | some v =>
      have htr2 : ∀ e ∈ loadWitness tr v, isLoad e = true := by
        intro e he
        rcases List.mem_append.1 he with h1 | h1
        · exact htr e h1
        · simp only [List.mem_singleton] at h1
          subst h1
          rfl
      have := ih (loadWitness tr v) htr2
      simp only [loadStrings, hv]
      cases hrun : loadStrings F (loadWitness tr v) rest with
      | mk tr2 o =>
        rw [hrun] at this
        cases o <;> simpa using this

theorem foldLevels_eq {F : Type} [Field F] [DecidableEq F] (hashL : List F → F)
    (l : List (F × F)) :
    ∀ (tr : List (CEvent F)) (cur : F),
    foldLevels F hashL tr cur l =
      (tr ++ levelTrace hashL cur l, levelSeq hashL cur l) := by
  induction l with
  | nil => intro tr cur; simp [foldLevels, levelTrace, levelSeq]
  | cons p rest ih =>
    obtain ⟨sib, bit⟩ := p
    intro tr cur
    by_cases hb : bit = 0
    · simp [foldLevels, levelTrace, levelSeq, hb, assert_bit, chipNew, chipUpdate,
        chipSqueeze, stepPair, foldStep, ih, List.append_assoc]
    · simp [foldLevels, levelTrace, levelSeq, hb, assert_bit, chipNew, chipUpdate,
        chipSqueeze, stepPair, foldStep, ih, List.append_assoc]

theorem run_eq {F : Type} [Field F] [DecidableEq F] (hashL : List F → F)
    {input : CircuitInput} {otpv timev : F} {pe pidx : List F}
    (h1 : from_str_vartime F input.otp = some otpv)
    (h2 : from_str_vartime F input.time = some timev)
    (h3 : decodeList F input.path_elements = some pe)
    (h4 : decodeList F input.path_index = some pidx) :
    otp_merkle_proof F hashL input =
      (prefixTrace hashL otpv timev pe pidx ++
         levelTrace hashL (hashL [timev, otpv]) (pe.zip pidx),
       some [timev,
         (levelHashes hashL (hashL [timev, otpv]) pe pidx).getD LEVELS 0]) := by
  simp only [otp_merkle_proof, h1, h2, loadStrings_some _ h3, loadStrings_some _ h4]
  simp [loadWitness, chipNew, chipUpdate, chipSqueeze, foldLevels_eq, prefixTrace,
    levelHashes, List.append_assoc]

theorem levelSeq_length {F : Type} [Field F] [DecidableEq F]
    (hashL : List F → F) (l : List (F × F)) :
    ∀ cur : F, (levelSeq hashL cur l).length = l.length := by
  induction l with
  | nil => intro cur; simp [levelSeq]
  | cons p rest ih =>
    obtain ⟨sib, bit⟩ := p
    intro cur
    simp [levelSeq, ih]

theorem levelHashes_getD_succ {F : Type} [Field F] [DecidableEq F]
    (hashL : List F → F) (l : List (F × F)) :
    ∀ (cur : F) (i : Nat), i < l.length →
    (cur :: levelSeq hashL cur l).getD (i + 1) 0 =
      foldStep hashL ((cur :: levelSeq hashL cur l).getD i 0)
        (l.getD i (0, 0)).1 (l.getD i (0, 0)).2 := by
  induction l with
  | nil => intro cur i h; simp at h
  | cons p rest ih =>
    obtain ⟨sib, bit⟩ := p
    intro cur i h
    cases i with
    | zero => simp [levelSeq]
    | succ j =>
      have hj : j < rest.length := by simpa using h
      simpa [levelSeq, List.getD_cons_succ] using
        ih (foldStep hashL cur sib bit) j hj

theorem cons4_getElem {F : Type} (e0 e1 e2 e3 : CEvent F)
    (L : List (CEvent F)) (n : Nat) :
    (e0 :: e1 :: e2 :: e3 :: L)[n + 4]? = L[n]? := by
  simp [List.getElem?_cons_succ, Nat.add_comm]

theorem levelTrace_get {F : Type} [Field F] [DecidableEq F]
    (hashL : List F → F) (l : List (F × F)) :
    ∀ (cur : F) (i : Nat), i < l.length →
    (levelTrace hashL cur l)[4 * i]? =
        some (CEvent.assertBit (l.getD i (0, 0)).2) ∧
    (levelTrace hashL cur l)[4 * i + 1]? =
        some (CEvent.poseidonNew T RATE R_F R_P) ∧
    (levelTrace hashL cur l)[4 * i + 2]? =
        some (CEvent.poseidonUpdate
          (stepPair ((cur :: levelSeq hashL cur l).getD i 0)
            (l.getD i (0, 0)).1 (l.getD i (0, 0)).2)) ∧
    (levelTrace hashL cur l)[4 * i + 3]? =
        some (CEvent.poseidonSqueeze
          (stepPair ((cur :: levelSeq hashL cur l).getD i 0)
            (l.getD i (0, 0)).1 (l.getD i (0, 0)).2)
          (foldStep hashL ((cur :: levelSeq hashL cur l).getD i 0)
            (l.getD i (0, 0)).1 (l.getD i (0, 0)).2)) := by
  induction l with
  | nil => intro cur i h; simp at h
  | cons p rest ih =>
    obtain ⟨sib, bit⟩ := p
    intro cur i h
    cases i with
    | zero => simp [levelTrace, levelSeq]
    | succ j =>
      have hj : j < rest.length := by simpa using h
      have IH := ih (foldStep hashL cur sib bit) j hj
      have c0 : 4 * (j + 1) = 4 * j + 4 := by omega
      have c1 : 4 * (j + 1) + 1 = (4 * j + 1) + 4 := by omega
      have c2 : 4 * (j + 1) + 2 = (4 * j + 2) + 4 := by omega
      have c3 : 4 * (j + 1) + 3 = (4 * j + 3) + 4 := by omega
      rw [show levelTrace hashL cur ((sib, bit) :: rest) =
            CEvent.assertBit bit ::
            CEvent.poseidonNew T RATE R_F R_P ::
            CEvent.poseidonUpdate (stepPair cur sib bit) ::
            CEvent.poseidonSqueeze (stepPair cur sib bit)
              (foldStep hashL cur sib bit) ::
            levelTrace hashL (foldStep hashL cur sib bit) rest from rfl,
          c3, c2, c1, c0, cons4_getElem, cons4_getElem, cons4_getElem,
          cons4_getElem]
      simpa [levelSeq, List.getD_cons_succ] using IH

theorem loads_filterMap_squeeze {F : Type} (vs : List F) :
    (vs.map CEvent.loadWitness).filterMap squeezeOut = [] := by
  induction vs with
  | nil => rfl
  | cons v r ih => simp [squeezeOut, ih]

theorem loads_filter_new {F : Type} (vs : List F) :
    (vs.map CEvent.loadWitness).filter isPoseidonNew = [] := by
  induction vs with
  | nil => rfl
  | cons v r ih => simp [isPoseidonNew, ih]

theorem levelTrace_filterMap {F : Type} [Field F] [DecidableEq F]
    (hashL : List F → F) (l : List (F × F)) :
    ∀ cur : F,
    (levelTrace hashL cur l).filterMap squeezeOut = levelSeq hashL cur l := by
  induction l with
  | nil => intro cur; rfl
  | cons p rest ih =>
    obtain ⟨sib, bit⟩ := p
    intro cur
    simp [levelTrace, levelSeq, squeezeOut, ih]

theorem levelTrace_filter_new {F : Type} [Field F] [DecidableEq F]
    (hashL : List F → F) (l : List (F × F)) :
    ∀ cur : F,
    (levelTrace hashL cur l).filter isPoseidonNew =
      List.replicate l.length (CEvent.poseidonNew T RATE R_F R_P) := by
  induction l with
  | nil => intro cur; rfl
  | cons p rest ih =>
    obtain ⟨sib, bit⟩ := p
    intro cur
    simp [levelTrace, isPoseidonNew, ih, List.replicate_succ]

theorem prefixTrace_length {F : Type} (hashL : List F → F) (otpv timev : F)
    (pe pidx : List F) :
    (prefixTrace hashL otpv timev pe pidx).length =
      pe.length + pidx.length + 5 := by
  simp [prefixTrace]
  omega

theorem prefixTrace_filterMap {F : Type} (hashL : List F → F)
    (otpv timev : F) (pe pidx : List F) :
    (prefixTrace hashL otpv timev pe pidx).filterMap squeezeOut =
      [hashL [timev, otpv]] := by
  unfold prefixTrace
  rw [List.filterMap_append, List.filterMap_append, loads_filterMap_squeeze,
    loads_filterMap_squeeze]
  simp [squeezeOut]

theorem prefixTrace_filter_new {F : Type} (hashL : List F → F)
    (otpv timev : F) (pe pidx : List F) :
    (prefixTrace hashL otpv timev pe pidx).filter isPoseidonNew =
      [CEvent.poseidonNew T RATE R_F R_P] := by
  unfold prefixTrace
  rw [List.filter_append, List.filter_append, loads_filter_new,
    loads_filter_new]
  simp [isPoseidonNew]

theorem runLevelHashes_eq {F : Type} [Field F] [DecidableEq F]
    (hashL : List F → F) {input : CircuitInput} {otpv timev : F}
    {pe pidx : List F}
    (h1 : from_str_vartime F input.otp = some otpv)
    (h2 : from_str_vartime F input.time = some timev)
    (h3 : decodeList F input.path_elements = some pe)
    (h4 : decodeList F input.path_index = some pidx) :
    runLevelHashes hashL input =
      levelHashes hashL (hashL [timev, otpv]) pe pidx := by
  unfold runLevelHashes
  rw [run_eq hashL h1 h2 h3 h4]
  simp [List.filterMap_append, prefixTrace_filterMap, levelTrace_filterMap,
    levelHashes]

theorem run_trace_get_fold {F : Type} [Field F] [DecidableEq F]
    (hashL : List F → F) {input : CircuitInput} {otpv timev : F}
    {pe pidx : List F}
    (h1 : from_str_vartime F input.otp = some otpv)
    (h2 : from_str_vartime F input.time = some timev)
    (h3 : decodeList F input.path_elements = some pe)
    (h4 : decodeList F input.path_index = some pidx)
    (hpe : pe.length = LEVELS) (hpi : pidx.length = LEVELS) (n : Nat) :
    (otp_merkle_proof F hashL input).1[prefixLen + n]? =
      (levelTrace hashL (hashL [timev, otpv]) (pe.zip pidx))[n]? := by
  rw [run_eq hashL h1 h2 h3 h4]
  have hlen : (prefixTrace hashL otpv timev pe pidx).length = prefixLen := by
    rw [prefixTrace_length, hpe, hpi]
    simp [prefixLen, LEVELS]
  rw [show (prefixTrace hashL otpv timev pe pidx ++
        levelTrace hashL (hashL [timev, otpv]) (pe.zip pidx),
        (some [timev,
          (levelHashes hashL (hashL [timev, otpv]) pe pidx).getD LEVELS 0] :
          Option (List F))).1 =
      prefixTrace hashL otpv timev pe pidx ++
        levelTrace hashL (hashL [timev, otpv]) (pe.zip pidx) from rfl]
  rw [List.getElem?_append_right (by omega : (prefixTrace hashL otpv timev pe pidx).length ≤ prefixLen + n)]
  congr 1
  omega

theorem zip_getD {F : Type} [Field F] {pe pidx : List F} {i : Nat}
    (hpe : i < pe.length) (hpi : i < pidx.length) :
    (pe.zip pidx).getD i (0, 0) = (pe.getD i 0, pidx.getD i 0) := by
  have hz : i < (pe.zip pidx).length := by
    rw [List.length_zip]
    omega
  rw [List.getD_eq_getElem (pe.zip pidx) (0, 0) hz, List.getElem_zip,
    List.getD_eq_getElem pe 0 hpe, List.getD_eq_getElem pidx 0 hpi]

/-! Claim theorems. -/

/-- C1 (amended): for every level i of the fold, when path_index[i] decodes
to 0 the next level hash is hash(level_hashes[i], path_elements[i]) (current
hash as left input, sibling as right input), and when it decodes to 1 it is
hash(path_elements[i], level_hashes[i]) - the opposite of the ordering the
claim states. -/
theorem C1_fold_ordering {F : Type} [Field F] [DecidableEq F]
    (hashL : List F → F) {input : CircuitInput} {otpv timev : F}
    {pe pidx : List F}
    (h1 : from_str_vartime F input.otp = some otpv)
    (h2 : from_str_vartime F input.time = some timev)
    (h3 : decodeList F input.path_elements = some pe)
    (h4 : decodeList F input.path_index = some pidx)
    (hpe : pe.length = LEVELS) (hpi : pidx.length = LEVELS)
    (i : Nat) (hi : i < LEVELS) :
    (pidx.getD i 0 = 0 →
      (runLevelHashes hashL input).getD (i + 1) 0 =
        hashL [(runLevelHashes hashL input).getD i 0, pe.getD i 0]) ∧
    (pidx.getD i 0 = 1 →
      (runLevelHashes hashL input).getD (i + 1) 0 =
        hashL [pe.getD i 0, (runLevelHashes hashL input).getD i 0]) := by
  rw [runLevelHashes_eq hashL h1 h2 h3 h4]
  unfold levelHashes
  have hz : i < (pe.zip pidx).length := by
    rw [List.length_zip]
    omega
  have hrec :=
    levelHashes_getD_succ hashL (pe.zip pidx) (hashL [timev, otpv]) i hz
  simp only [zip_getD (by omega : i < pe.length) (by omega : i < pidx.length)]
    at hrec
  constructor
  · intro hb
    rw [hrec, hb]
    simp [foldStep, stepPair]
  · intro hb
    rw [hrec, hb]
    simp [foldStep, stepPair]

/-- C1 counterexample: on the concrete input cexIn the level-0 direction bit
decodes to 0 and the level-0 sibling decodes to 1, yet the next level hash is
not hash(path_elements[0], level_hashes[0]) as the claim states; it is
hash(level_hashes[0], path_elements[0]). -/
theorem C1_fold_ordering_cex :
    from_str_vartime (ZMod 101) (cexIn.path_index.getD 0 "") = some 0 ∧
    from_str_vartime (ZMod 101) (cexIn.path_elements.getD 0 "") = some 1 ∧
    ¬ ((runLevelHashes hash101 cexIn).getD 1 0 =
        hash101 [1, (runLevelHashes hash101 cexIn).getD 0 0]) ∧
    (runLevelHashes hash101 cexIn).getD 1 0 =
      hash101 [(runLevelHashes hash101 cexIn).getD 0 0, 1] := by
  decide

/-- C1 witness: the amended ordering statement instantiated at the concrete
repository test vector, level 0 (bit 1). -/
theorem C1_fold_ordering_w :
    from_str_vartime (ZMod 101) wIn.otp = some wOtp ∧
    from_str_vartime (ZMod 101) wIn.time = some wTime ∧
    decodeList (ZMod 101) wIn.path_elements = some wPe ∧
    decodeList (ZMod 101) wIn.path_index = some wPi ∧
    wPe.length = LEVELS ∧ wPi.length = LEVELS ∧ 0 < LEVELS ∧
    ((wPi.getD 0 0 = 0 →
      (runLevelHashes hash101 wIn).getD 1 0 =
        hash101 [(runLevelHashes hash101 wIn).getD 0 0, wPe.getD 0 0]) ∧
     (wPi.getD 0 0 = 1 →
      (runLevelHashes hash101 wIn).getD 1 0 =
        hash101 [wPe.getD 0 0, (runLevelHashes hash101 wIn).getD 0 0])) :=
  ⟨by decide, by decide, by decide, by decide, by decide, by decide,
   by decide,
   @C1_fold_ordering (ZMod 101) _ _ hash101 wIn wOtp wTime wPe wPi
     (by decide) (by decide) (by decide) (by decide) (by decide) (by decide)
     0 (by decide)⟩

/-- C2: on the concrete input cexIn the level-0 direction bit is 0 and the
update pair actually emitted is (level_hashes[0], path_elements[0]) = (16, 1):
the left hash input is the current hash 16, while the affine selection
identity of the claim, bit * level_hashes[0] + (1 - bit) * path_elements[0],
evaluates to 1.  The ordering is decided by a host-language branch on the
witness value (src line 60), not by an arithmetic constraint, and it has the
opposite orientation of the claimed identity. -/
theorem C2_affine_select :
    ((otp_merkle_proof (ZMod 101) hash101 cexIn).1)[61]? =
      some (CEvent.poseidonUpdate [16, 1]) ∧
    (runLevelHashes hash101 cexIn).getD 0 0 = 16 ∧
    from_str_vartime (ZMod 101) (cexIn.path_elements.getD 0 "") = some 1 ∧
    from_str_vartime (ZMod 101) (cexIn.path_index.getD 0 "") = some 0 ∧
    (0 : ZMod 101) * 16 + (1 - 0) * 1 = 1 ∧
    (16 : ZMod 101) ≠ 1 := by
  decide

/-- C3: for every level i the booleanity event on the decoded path_index[i]
sits at trace position prefixLen + 4i, strictly before the update event at
position prefixLen + 4i + 2 that uses the bit to select the hash-input
ordering; and if the bit value is neither 0 nor 1, the constraint system of
the whole trace is unsatisfied, whatever the remaining inputs are. -/
theorem C3_boolean_constraint {F : Type} [Field F] [DecidableEq F]
    (hashL : List F → F) {input : CircuitInput} {otpv timev : F}
    {pe pidx : List F}
    (h1 : from_str_vartime F input.otp = some otpv)
    (h2 : from_str_vartime F input.time = some timev)
    (h3 : decodeList F input.path_elements = some pe)
    (h4 : decodeList F input.path_index = some pidx)
    (hpe : pe.length = LEVELS) (hpi : pidx.length = LEVELS)
    (i : Nat) (hi : i < LEVELS) :
    (otp_merkle_proof F hashL input).1[prefixLen + 4 * i]? =
      some (CEvent.assertBit (pidx.getD i 0)) ∧
    (otp_merkle_proof F hashL input).1[prefixLen + (4 * i + 2)]? =
      some (CEvent.poseidonUpdate
        (stepPair ((runLevelHashes hashL input).getD i 0) (pe.getD i 0)
          (pidx.getD i 0))) ∧
    (pidx.getD i 0 ≠ 0 → pidx.getD i 0 ≠ 1 →
      satisfiedTrace hashL (otp_merkle_proof F hashL input).1 = false) := by
  have hz : i < (pe.zip pidx).length := by
    rw [List.length_zip]
    omega
  have hget := levelTrace_get hashL (pe.zip pidx) (hashL [timev, otpv]) i hz
  simp only [zip_getD (by omega : i < pe.length) (by omega : i < pidx.length)]
    at hget
  obtain ⟨g0, g1, g2, g3⟩ := hget
  have t0 := run_trace_get_fold hashL h1 h2 h3 h4 hpe hpi (4 * i)
  have t2 := run_trace_get_fold hashL h1 h2 h3 h4 hpe hpi (4 * i + 2)
  refine ⟨?_, ?_, ?_⟩
  · rw [t0, g0]
  · rw [t2, runLevelHashes_eq hashL h1 h2 h3 h4]
    unfold levelHashes
    exact g2
  · intro hb0 hb1
    have hsome : (otp_merkle_proof F hashL input).1[prefixLen + 4 * i]? =
        some (CEvent.assertBit (pidx.getD i 0)) := by rw [t0, g0]
    obtain ⟨hlt, heq⟩ := List.getElem?_eq_some.1 hsome
    have hmem : CEvent.assertBit (pidx.getD i 0) ∈
        (otp_merkle_proof F hashL input).1 := heq ▸ List.getElem_mem hlt
    have hne : pidx.getD i 0 * (pidx.getD i 0 - 1) ≠ 0 := by
      intro hz0
      rcases mul_eq_zero.1 hz0 with hcase | hcase
      · exact hb0 hcase
      · exact hb1 (by rwa [sub_eq_zero] at hcase)
    cases hall : satisfiedTrace hashL (otp_merkle_proof F hashL input).1 with
    | false => rfl
    | true =>
      exfalso
      have hok := List.all_eq_true.1 hall _ hmem
      exact hne (by simpa [CEvent.ok] using hok)

/-- C3 witness: the boolean-soundness statement instantiated at the test
vector whose first direction bit is the field value 2, level 0; the trace is
unsatisfied there. -/
theorem C3_boolean_constraint_w :
    from_str_vartime (ZMod 101) w3In.otp = some wOtp ∧
    from_str_vartime (ZMod 101) w3In.time = some wTime ∧
    decodeList (ZMod 101) w3In.path_elements = some wPe ∧
    decodeList (ZMod 101) w3In.path_index = some w3Pi ∧
    wPe.length = LEVELS ∧ w3Pi.length = LEVELS ∧ 0 < LEVELS ∧
    ((otp_merkle_proof (ZMod 101) hash101 w3In).1[prefixLen + 4 * 0]? =
      some (CEvent.assertBit (w3Pi.getD 0 0)) ∧
    (otp_merkle_proof (ZMod 101) hash101 w3In).1[prefixLen + (4 * 0 + 2)]? =
      some (CEvent.poseidonUpdate
        (stepPair ((runLevelHashes hash101 w3In).getD 0 0) (wPe.getD 0 0)
          (w3Pi.getD 0 0))) ∧
    (w3Pi.getD 0 0 ≠ 0 → w3Pi.getD 0 0 ≠ 1 →
      satisfiedTrace hash101 (otp_merkle_proof (ZMod 101) hash101 w3In).1 =
        false)) :=
  ⟨by decide, by decide, by decide, by decide, by decide, by decide,
   by decide,
   @C3_boolean_constraint (ZMod 101) _ _ hash101 w3In wOtp wTime wPe w3Pi
     (by decide) (by decide) (by decide) (by decide) (by decide) (by decide)
     0 (by decide)⟩

/-- C4: whenever construction completes, make_public is exactly the two-element
list [time, root], with the decoded time at index 0 and the computed root at
index 1, and nothing else is made public. -/
theorem C4_public_outputs {F : Type} [Field F] [DecidableEq F]
    (hashL : List F → F) {input : CircuitInput} {otpv timev : F}
    {pe pidx : List F}
    (h1 : from_str_vartime F input.otp = some otpv)
    (h2 : from_str_vartime F input.time = some timev)
    (h3 : decodeList F input.path_elements = some pe)
    (h4 : decodeList F input.path_index = some pidx) :
    (otp_merkle_proof F hashL input).2 =
      some [timev, (runLevelHashes hashL input).getD LEVELS 0] := by
  rw [runLevelHashes_eq hashL h1 h2 h3 h4, run_eq hashL h1 h2 h3 h4]

/-- C4 witness: the public-output statement instantiated at the repository
test vector. -/
theorem C4_public_outputs_w :
    from_str_vartime (ZMod 101) wIn.otp = some wOtp ∧
    from_str_vartime (ZMod 101) wIn.time = some wTime ∧
    decodeList (ZMod 101) wIn.path_elements = some wPe ∧
    decodeList (ZMod 101) wIn.path_index = some wPi ∧
    (otp_merkle_proof (ZMod 101) hash101 wIn).2 =
      some [wTime, (runLevelHashes hash101 wIn).getD LEVELS 0] :=
  ⟨by decide, by decide, by decide, by decide,
   @C4_public_outputs (ZMod 101) _ _ hash101 wIn wOtp wTime wPe wPi
     (by decide) (by decide) (by decide) (by decide)⟩

/-- C5 counterexample: on badIn the second path element is not a decimal
string, decoding fails, and at the moment of failure the trace already
contains the witness loaded for the first path element - so the failure is
not raised before any witness exists and a partial circuit state does exist. -/
theorem C5_decode_failure_cex :
    from_str_vartime (ZMod 101) (badIn.path_elements.getD 1 "") = none ∧
    otp_merkle_proof (ZMod 101) hash101 badIn =
      ([CEvent.loadWitness 7], none) := by
  decide

/-- C5 (amended): construction fails (the decode panic, modelled as a none
result) exactly when one of the four input fields contains a malformed
base-10 string, and the failure always happens before any constraint or hash
event exists - the trace at failure holds only witness-load events, though
witnesses for path entries decoded earlier may already be among them. -/
theorem C5_decode_failure {F : Type} [Field F] [DecidableEq F]
    (hashL : List F → F) (input : CircuitInput) :
    ((otp_merkle_proof F hashL input).2 = none ↔
      (from_str_vartime F input.otp = none ∨
       from_str_vartime F input.time = none ∨
       decodeList F input.path_elements = none ∨
       decodeList F input.path_index = none)) ∧
    ((otp_merkle_proof F hashL input).2 = none →
      ∀ e ∈ (otp_merkle_proof F hashL input).1, isLoad e = true) := by
  cases hotp : from_str_vartime F input.otp with
  | none =>
    refine ⟨?_, ?_⟩
    · simp [otp_merkle_proof, hotp]
    · intro _ e he
      simp [otp_merkle_proof, hotp] at he
  | some otpv =>
    cases htime : from_str_vartime F input.time with
    | none =>
      refine ⟨?_, ?_⟩
      · simp [otp_merkle_proof, hotp, htime]
      · intro _ e he
        simp [otp_merkle_proof, hotp, htime] at he
    | some timev =>
      cases hpe : decodeList F input.path_elements with
      | none =>
        have hls := loadStrings_none ([] : List (CEvent F)) hpe
        have hrun : otp_merkle_proof F hashL input =
            ((loadStrings F [] input.path_elements).1, none) := by
          cases hs : loadStrings F [] input.path_elements with
          | mk tr o =>
            rw [hs] at hls
            simp only at hls
            subst hls
            simp [otp_merkle_proof, hotp, htime, hs]
        refine ⟨?_, ?_⟩
        · rw [hrun]
          simp [hpe]
        · intro _ e he
          rw [hrun] at he
          refine loadStrings_loads _ ?_ e he
          intro e2 h2
          simp at h2
      | some pe =>
        cases hpi : decodeList F input.path_index with
        | none =>
          have tr1 := loadStrings_some ([] : List (CEvent F)) hpe
          rw [List.nil_append] at tr1
          have hls := loadStrings_none (pe.map CEvent.loadWitness) hpi
          have hrun : otp_merkle_proof F hashL input =
              ((loadStrings F (pe.map CEvent.loadWitness)
                  input.path_index).1, none) := by
            cases hs : loadStrings F (pe.map CEvent.loadWitness)
                input.path_index with
            | mk tr2 o =>
              rw [hs] at hls
              simp only at hls
              subst hls
              simp [otp_merkle_proof, hotp, htime, tr1, hs]
          refine ⟨?_, ?_⟩
          · rw [hrun]
            simp [hpi]
          · intro _ e he
            rw [hrun] at he
            refine loadStrings_loads _ ?_ e he
            intro e2 h2
            rcases List.mem_map.1 h2 with ⟨v, _, hvv⟩
            rw [← hvv]
            rfl
        | some pidx =>
          have hrun := run_eq hashL hotp htime hpe hpi
          refine ⟨?_, ?_⟩
          · rw [hrun]
            simp [hotp, htime, hpe, hpi]
          · rw [hrun]
            intro h
            simp at h

/-- C5 witness: the amended failure statement instantiated at badIn. -/
theorem C5_decode_failure_w :
    (otp_merkle_proof (ZMod 101) hash101 badIn).2 = none ∧
    ∀ e ∈ (otp_merkle_proof (ZMod 101) hash101 badIn).1, isLoad e = true :=
  ⟨by decide, (C5_decode_failure hash101 badIn).2 (by decide)⟩

/-- C6: LEVELS is 27, the observable hash sequence of a successful run is
the LEVELS + 1 level hashes starting at the leaf commitment, the second
public output is level_hashes[LEVELS], and every next level hash is the pure
function foldStep of only the previous level hash, the sibling and the
direction bit at that level. -/
theorem C6_fold_structure {F : Type} [Field F] [DecidableEq F]
    (hashL : List F → F) {input : CircuitInput} {otpv timev : F}
    {pe pidx : List F}
    (h1 : from_str_vartime F input.otp = some otpv)
    (h2 : from_str_vartime F input.time = some timev)
    (h3 : decodeList F input.path_elements = some pe)
    (h4 : decodeList F input.path_index = some pidx)
    (hpe : pe.length = LEVELS) (hpi : pidx.length = LEVELS) :
    LEVELS = 27 ∧
    runLevelHashes hashL input =
      levelHashes hashL (hashL [timev, otpv]) pe pidx ∧
    (levelHashes hashL (hashL [timev, otpv]) pe pidx).length = LEVELS + 1 ∧
    (levelHashes hashL (hashL [timev, otpv]) pe pidx).getD 0 0 =
      hashL [timev, otpv] ∧
    (otp_merkle_proof F hashL input).2 =
      some [timev,
        (levelHashes hashL (hashL [timev, otpv]) pe pidx).getD LEVELS 0] ∧
    ∀ i, i < LEVELS →
      (levelHashes hashL (hashL [timev, otpv]) pe pidx).getD (i + 1) 0 =
        foldStep hashL
          ((levelHashes hashL (hashL [timev, otpv]) pe pidx).getD i 0)
          (pe.getD i 0) (pidx.getD i 0) := by
  refine ⟨rfl, runLevelHashes_eq hashL h1 h2 h3 h4, ?_, rfl, ?_, ?_⟩
  · simp [levelHashes, levelSeq_length, List.length_zip, hpe, hpi]
  · rw [run_eq hashL h1 h2 h3 h4]
  · intro i hi
    have hz : i < (pe.zip pidx).length := by
      rw [List.length_zip]
      omega
    have hrec :=
      levelHashes_getD_succ hashL (pe.zip pidx) (hashL [timev, otpv]) i hz
    simp only [zip_getD (by omega : i < pe.length)
      (by omega : i < pidx.length)] at hrec
    exact hrec

/-- C6 witness: the fold-structure statement instantiated at the repository
test vector. -/
theorem C6_fold_structure_w :
    from_str_vartime (ZMod 101) wIn.otp = some wOtp ∧
    from_str_vartime (ZMod 101) wIn.time = some wTime ∧
    decodeList (ZMod 101) wIn.path_elements = some wPe ∧
    decodeList (ZMod 101) wIn.path_index = some wPi ∧
    wPe.length = LEVELS ∧ wPi.length = LEVELS ∧
    (LEVELS = 27 ∧
     runLevelHashes hash101 wIn =
       levelHashes hash101 (hash101 [wTime, wOtp]) wPe wPi ∧
     (levelHashes hash101 (hash101 [wTime, wOtp]) wPe wPi).length =
       LEVELS + 1 ∧
     (levelHashes hash101 (hash101 [wTime, wOtp]) wPe wPi).getD 0 0 =
       hash101 [wTime, wOtp] ∧
     (otp_merkle_proof (ZMod 101) hash101 wIn).2 =
       some [wTime,
         (levelHashes hash101 (hash101 [wTime, wOtp]) wPe wPi).getD LEVELS 0] ∧
     ∀ i, i < LEVELS →
       (levelHashes hash101 (hash101 [wTime, wOtp]) wPe wPi).getD (i + 1) 0 =
         foldStep hash101
           ((levelHashes hash101 (hash101 [wTime, wOtp]) wPe wPi).getD i 0)
           (wPe.getD i 0) (wPi.getD i 0)) :=
  ⟨by decide, by decide, by decide, by decide, by decide, by decide,
   @C6_fold_structure (ZMod 101) _ _ hash101 wIn wOtp wTime wPe wPi
     (by decide) (by decide) (by decide) (by decide) (by decide) (by decide)⟩

/-- C7: the poseidonNew events of a successful run are exactly LEVELS + 1
instantiations (one for the leaf commitment and one per fold level), every
one of them with state width T = 3, rate RATE = 2, R_F = 8 full rounds and
R_P = 57 partial rounds. -/
theorem C7_poseidon_params {F : Type} [Field F] [DecidableEq F]
    (hashL : List F → F) {input : CircuitInput} {otpv timev : F}
    {pe pidx : List F}
    (h1 : from_str_vartime F input.otp = some otpv)
    (h2 : from_str_vartime F input.time = some timev)
    (h3 : decodeList F input.path_elements = some pe)
    (h4 : decodeList F input.path_index = some pidx)
    (hpe : pe.length = LEVELS) (hpi : pidx.length = LEVELS) :
    T = 3 ∧ RATE = 2 ∧ R_F = 8 ∧ R_P = 57 ∧
    ((otp_merkle_proof F hashL input).1).filter isPoseidonNew =
      List.replicate (LEVELS + 1) (CEvent.poseidonNew T RATE R_F R_P) := by
  refine ⟨rfl, rfl, rfl, rfl, ?_⟩
  rw [run_eq hashL h1 h2 h3 h4]
  show (prefixTrace hashL otpv timev pe pidx ++
      levelTrace hashL (hashL [timev, otpv]) (pe.zip pidx)).filter
      isPoseidonNew = _
  rw [List.filter_append, prefixTrace_filter_new, levelTrace_filter_new]
  have hl : (pe.zip pidx).length = LEVELS := by
    rw [List.length_zip, hpe, hpi]
    simp
  rw [hl]
  simp [List.replicate_succ]

/-- C7 witness: the hash-parameter statement instantiated at the repository
test vector. -/
theorem C7_poseidon_params_w :
    from_str_vartime (ZMod 101) wIn.otp = some wOtp ∧
    from_str_vartime (ZMod 101) wIn.time = some wTime ∧
    decodeList (ZMod 101) wIn.path_elements = some wPe ∧
    decodeList (ZMod 101) wIn.path_index = some wPi ∧
    wPe.length = LEVELS ∧ wPi.length = LEVELS ∧
    (T = 3 ∧ RATE = 2 ∧ R_F = 8 ∧ R_P = 57 ∧
     ((otp_merkle_proof (ZMod 101) hash101 wIn).1).filter isPoseidonNew =
       List.replicate (LEVELS + 1) (CEvent.poseidonNew T RATE R_F R_P)) :=
  ⟨by decide, by decide, by decide, by decide, by decide, by decide,
   @C7_poseidon_params (ZMod 101) _ _ hash101 wIn wOtp wTime wPe wPi
     (by decide) (by decide) (by decide) (by decide) (by decide) (by decide)⟩

/-- C8: circuit construction is deterministic - it is a pure function of the
CircuitInput, so two constructions on equal inputs give equal public
outputs. -/
theorem C8_determinism {F : Type} [Field F] [DecidableEq F]
    (hashL : List F → F) (input1 input2 : CircuitInput)
    (h : input1 = input2) :
    (otp_merkle_proof F hashL input1).2 =
      (otp_merkle_proof F hashL input2).2 := by
  rw [h]

/-- C8 witness: determinism instantiated at the repository test vector. -/
theorem C8_determinism_w :
    wIn = wIn ∧
    (otp_merkle_proof (ZMod 101) hash101 wIn).2 =
      (otp_merkle_proof (ZMod 101) hash101 wIn).2 :=
  ⟨rfl, C8_determinism hash101 wIn wIn rfl⟩

/-- C9: the leaf commitment absorbs the pair in the order (time, otp): the
single pre-fold update event carries [time, otp] and the first observable
hash output is hash applied to [time, otp]. -/
theorem C9_leaf_order {F : Type} [Field F] [DecidableEq F]
    (hashL : List F → F) {input : CircuitInput} {otpv timev : F}
    {pe pidx : List F}
    (h1 : from_str_vartime F input.otp = some otpv)
    (h2 : from_str_vartime F input.time = some timev)
    (h3 : decodeList F input.path_elements = some pe)
    (h4 : decodeList F input.path_index = some pidx)
    (hpe : pe.length = LEVELS) (hpi : pidx.length = LEVELS) :
    (otp_merkle_proof F hashL input).1[2 * LEVELS + 3]? =
      some (CEvent.poseidonUpdate [timev, otpv]) ∧
    (runLevelHashes hashL input).getD 0 0 = hashL [timev, otpv] := by
  constructor
  · rw [run_eq hashL h1 h2 h3 h4]
    show (prefixTrace hashL otpv timev pe pidx ++
        levelTrace hashL (hashL [timev, otpv]) (pe.zip pidx))[2 * LEVELS + 3]? =
      some (CEvent.poseidonUpdate [timev, otpv])
    rw [List.getElem?_append_left (by
      rw [prefixTrace_length, hpe, hpi]
      omega)]
    unfold prefixTrace
    rw [List.getElem?_append_right (by
      simp only [List.length_append, List.length_map, hpe, hpi]
      omega)]
    simp only [List.length_append, List.length_map, hpe, hpi]
    norm_num [LEVELS]
  · rw [runLevelHashes_eq hashL h1 h2 h3 h4]
    rfl

/-- C9 witness: the leaf-order statement instantiated at the repository test
vector. -/
theorem C9_leaf_order_w :
    from_str_vartime (ZMod 101) wIn.otp = some wOtp ∧
    from_str_vartime (ZMod 101) wIn.time = some wTime ∧
    decodeList (ZMod 101) wIn.path_elements = some wPe ∧
    decodeList (ZMod 101) wIn.path_index = some wPi ∧
    wPe.length = LEVELS ∧ wPi.length = LEVELS ∧
    ((otp_merkle_proof (ZMod 101) hash101 wIn).1[2 * LEVELS + 3]? =
       some (CEvent.poseidonUpdate [wTime, wOtp]) ∧
     (runLevelHashes hash101 wIn).getD 0 0 = hash101 [wTime, wOtp]) :=
  ⟨by decide, by decide, by decide, by decide, by decide, by decide,
   @C9_leaf_order (ZMod 101) _ _ hash101 wIn wOtp wTime wPe wPi
     (by decide) (by decide) (by decide) (by decide) (by decide) (by decide)⟩

/-- C10: every fold level instantiates a fresh Poseidon chip between its
booleanity event and its update event, and the squeeze of that level hashes
exactly the two elements of that level (the current level hash and the
sibling, in the ordering selected by the bit) - no sponge state carries over
from the leaf hash or from an earlier level. -/
theorem C10_fresh_sponge {F : Type} [Field F] [DecidableEq F]
    (hashL : List F → F) {input : CircuitInput} {otpv timev : F}
    {pe pidx : List F}
    (h1 : from_str_vartime F input.otp = some otpv)
    (h2 : from_str_vartime F input.time = some timev)
    (h3 : decodeList F input.path_elements = some pe)
    (h4 : decodeList F input.path_index = some pidx)
    (hpe : pe.length = LEVELS) (hpi : pidx.length = LEVELS)
    (i : Nat) (hi : i < LEVELS) :
    (otp_merkle_proof F hashL input).1[prefixLen + (4 * i + 1)]? =
      some (CEvent.poseidonNew T RATE R_F R_P) ∧
    (otp_merkle_proof F hashL input).1[prefixLen + (4 * i + 3)]? =
      some (CEvent.poseidonSqueeze
        (stepPair ((runLevelHashes hashL input).getD i 0) (pe.getD i 0)
          (pidx.getD i 0))
        (foldStep hashL ((runLevelHashes hashL input).getD i 0)
          (pe.getD i 0) (pidx.getD i 0))) ∧
    (stepPair ((runLevelHashes hashL input).getD i 0) (pe.getD i 0)
      (pidx.getD i 0)).length = 2 := by
  have hz : i < (pe.zip pidx).length := by
    rw [List.length_zip]
    omega
  have hget := levelTrace_get hashL (pe.zip pidx) (hashL [timev, otpv]) i hz
  simp only [zip_getD (by omega : i < pe.length)
    (by omega : i < pidx.length)] at hget
  obtain ⟨g0, g1, g2, g3⟩ := hget
  have t1 := run_trace_get_fold hashL h1 h2 h3 h4 hpe hpi (4 * i + 1)
  have t3 := run_trace_get_fold hashL h1 h2 h3 h4 hpe hpi (4 * i + 3)
  refine ⟨?_, ?_, ?_⟩
  · rw [t1, g1]
  · rw [t3, runLevelHashes_eq hashL h1 h2 h3 h4]
    unfold levelHashes
    exact g3
  · unfold stepPair
    by_cases hb : pidx.getD i 0 = 0
    · rw [if_pos hb]
      rfl
    · rw [if_neg hb]
      rfl

/-- C10 witness: the fresh-sponge statement instantiated at the repository
test vector, level 0. -/
theorem C10_fresh_sponge_w :
    from_str_vartime (ZMod 101) wIn.otp = some wOtp ∧
    from_str_vartime (ZMod 101) wIn.time = some wTime ∧
    decodeList (ZMod 101) wIn.path_elements = some wPe ∧
    decodeList (ZMod 101) wIn.path_index = some wPi ∧
    wPe.length = LEVELS ∧ wPi.length = LEVELS ∧ 0 < LEVELS ∧
    ((otp_merkle_proof (ZMod 101) hash101 wIn).1[prefixLen + (4 * 0 + 1)]? =
       some (CEvent.poseidonNew T RATE R_F R_P) ∧
     (otp_merkle_proof (ZMod 101) hash101 wIn).1[prefixLen + (4 * 0 + 3)]? =
       some (CEvent.poseidonSqueeze
         (stepPair ((runLevelHashes hash101 wIn).getD 0 0) (wPe.getD 0 0)
           (wPi.getD 0 0))
         (foldStep hash101 ((runLevelHashes hash101 wIn).getD 0 0)
           (wPe.getD 0 0) (wPi.getD 0 0))) ∧
     (stepPair ((runLevelHashes hash101 wIn).getD 0 0) (wPe.getD 0 0)
       (wPi.getD 0 0)).length = 2) :=
  ⟨by decide, by decide, by decide, by decide, by decide, by decide,
   by decide,
   @C10_fresh_sponge (ZMod 101) _ _ hash101 wIn wOtp wTime wPe wPi
     (by decide) (by decide) (by decide) (by decide) (by decide) (by decide)
     0 (by decide)⟩
end Halo2Otp
